import Mathlib

/-!
Verification of the Transformer-XL outer model (`model_transformer_xl.py`).

Shallow embedding conventions:
* Tensor values are rationals (`ℚ`); tensors are nested lists.
* The external decoder stack `TransformerDecoder` (imported from
  `util_transformer`, whose source is not part of this development) is a
  function parameter `dec`; where a claim depends on its internals the
  behaviour is modelled from the spec and marked as such.
* `nn.Dropout` randomness is modelled by an explicit boolean mask argument.
* Module weight storage (needed for the weight-tying aliasing) is modelled by
  an explicit store mapping references to matrices.
-/

set_option autoImplicit false
set_option linter.unusedVariables false

namespace TXL

/-- A vector of rationals (one tensor row). -/
abbrev Vec := List ℚ

/-- A 2-D tensor. -/
abbrev Mat := List Vec

/-- A 3-D tensor. -/
abbrev Mat3 := List Mat

/-- `EPS = 1e-5` from the source (declared for numeric stability; unused by
`forward`). -/
def EPS : ℚ := 1 / 100000

/-- `CLAMP_EXP = 15` from the source: clamp bound applied to projection
scores before exponentiation. -/
def CLAMP_EXP : ℚ := 15

/-! ## The nested cache structure and `repackage_hidden` -/

/-- The cached key/value structure handed back by the decoder stack: an
arbitrarily nested sequence whose leaves are tensors.  A leaf records the
tensor data together with the `requires_grad` flag that `detach` strips. -/
inductive Hidden where
  | tensor (requires_grad : Bool) (data : List ℚ) : Hidden
  | group (items : List Hidden) : Hidden

mutual

/-- `TransformerXL.repackage_hidden`: `h.detach()` on a tensor, otherwise
`tuple(repackage_hidden(v) for v in h)`. -/
def repackage_hidden : Hidden → Hidden
  | .tensor _ d => .tensor false d
  | .group items => .group (repackage_hidden_list items)

/-- The tuple comprehension in `repackage_hidden`, mapped over the children. -/
def repackage_hidden_list : List Hidden → List Hidden
  | [] => []
  | h :: t => repackage_hidden h :: repackage_hidden_list t

end

/-- Observation of a `Hidden` value that forgets only the gradient-tracking
flags: the nesting structure, the number of entries at every level and the
numeric contents are all retained. -/
inductive HData where
  | leaf (data : List ℚ) : HData
  | node (items : List HData) : HData

mutual

/-- Strip the gradient flags from a `Hidden` value, keeping structure and
data. -/
def hiddenData : Hidden → HData
  | .tensor _ d => .leaf d
  | .group items => .node (hiddenDataList items)

/-- `hiddenData` mapped over children. -/
def hiddenDataList : List Hidden → List HData
  | [] => []
  | h :: t => hiddenData h :: hiddenDataList t

end

mutual

/-- `true` iff every tensor leaf in the structure has `requires_grad = false`
(i.e. has been detached). -/
def allDetached : Hidden → Bool
  | .tensor g _ => !g
  | .group items => allDetachedList items

/-- `allDetached` over a list of children. -/
def allDetachedList : List Hidden → Bool
  | [] => true
  | h :: t => allDetached h && allDetachedList t

end

/-! ## Weight storage and `__init__` (weight tying) -/

/-- A store mapping weight references to matrices; models tensor storage so
that aliasing (two module attributes holding the *same* storage) is
expressible. -/
def Store := Nat → Mat

/-- Overwrite the matrix held at reference `r` (models an in-place update of
that storage, e.g. a training step). -/
def store_write (σ : Store) (r : Nat) (W : Mat) : Store :=
  fun s => if s = r then W else σ s

/-- The weight references held by the constructed model: the storage used by
`self.word_embedding` and the storage used by `self.word_decoding`. -/
structure ModuleRefs where
  word_embedding_weight : Nat
  word_decoding_weight : Nat
deriving DecidableEq, Repr

/-- `TransformerXL.__init__`, lines 51-54: `nn.Embedding` is created with its
own fresh storage `embedding_ref`, `nn.Linear(bias=False)` with its own fresh
storage `linear_ref`, and then line 54
(`self.word_decoding.weight = self.word_embedding.weight`) rebinds the
decoder's weight attribute to the embedding's storage. -/
def txl_init_refs (embedding_ref linear_ref : Nat) : ModuleRefs :=
  let m : ModuleRefs :=
    { word_embedding_weight := embedding_ref
      word_decoding_weight := linear_ref }
  { m with word_decoding_weight := m.word_embedding_weight }

/-- The matrix the embedding lookup reads. -/
def read_embedding_weight (σ : Store) (m : ModuleRefs) : Mat :=
  σ m.word_embedding_weight

/-- The matrix the output projection reads. -/
def read_decoding_weight (σ : Store) (m : ModuleRefs) : Mat :=
  σ m.word_decoding_weight

/-! ## Forward-pass building blocks -/

/-- `self.word_embedding(x)`: row lookup in the shared matrix, one row per
token id. -/
def embed (W : Mat) (x : List (List Nat)) : Mat3 :=
  x.map fun row => row.map fun id => W.getD id []

/-- Dot product of two vectors (truncating at the shorter, as `zipWith`). -/
def dot (a b : Vec) : ℚ :=
  (List.zipWith (fun p q => p * q) a b).sum

/-- `self.word_decoding(h)`: `nn.Linear(n_embedding, vocab_size, bias=False)`
whose weight is the shared matrix `W` of shape (vocab, embedding); the output
coordinate for vocabulary item `v` is `⟨W[v], h⟩` — multiplication by the
transpose of `W`, with no bias added. -/
def word_decoding (W : Mat) (h : Vec) : Vec :=
  W.map fun wrow => dot wrow h

/-- `output.clamp(min=-CLAMP_EXP, max=CLAMP_EXP)`, elementwise on one
scalar: values below the lower bound saturate to it, values above the upper
bound saturate to it, everything else passes through. -/
def clamp_exp (q : ℚ) : ℚ :=
  if q < -CLAMP_EXP then -CLAMP_EXP else if CLAMP_EXP < q then CLAMP_EXP else q

/-- Clamp a whole score row. -/
def clamp_row (r : Vec) : Vec :=
  r.map clamp_exp

/-- `torch.max(output, dim=1)[1]` on a single row: index of the first
occurrence of the maximal value (standard argmax tie-breaking). -/
def argmaxIdx : List ℚ → Nat
  | [] => 0
  | [_] => 0
  | a :: b :: rest =>
    let r := argmaxIdx (b :: rest)
    if a < (b :: rest).getD r 0 then r + 1 else 0

/-- `torch.nn.functional.softmax(row, dim=1)` on a single row, parameterised
by the exponential map `ef` (the floating-point `exp` is not exactly
representable over `ℚ`; all claims are stated for any strictly monotone,
positive `ef`). -/
def softmax (ef : ℚ → ℚ) (row : Vec) : Vec :=
  let es := row.map ef
  es.map fun e => e / es.sum

/-- `t.view(b, s, ...)` on a flat list of `b*s` entries: row `i` is the slice
`[i*s, i*s + s)`. -/
def view2 {α : Type} (b s : Nat) (flat : List α) : List (List α) :=
  (List.range b).map fun i => (flat.drop (i * s)).take s

/-- Shape check for a 2-D list tensor. -/
def shape2 {α : Type} (t : List (List α)) (a b : Nat) : Bool :=
  t.length == a && t.all fun r => r.length == b

/-- Shape check for a 3-D list tensor. -/
def shape3 {α : Type} (t : List (List (List α))) (a b c : Nat) : Bool :=
  t.length == a && t.all fun m => m.length == b && m.all fun r => r.length == c

/-- `nn.Dropout(p)` on one scalar given one mask bit: in training mode a
dropped coordinate becomes `0` and a kept one is rescaled by `1/(1-p)`; in
evaluation mode the input passes through unchanged. -/
def dropout_scalar (training : Bool) (m : Bool) (p : ℚ) (q : ℚ) : ℚ :=
  if training then (if m then 0 else q / (1 - p)) else q

/-- `nn.Dropout(p)` on a 3-D tensor with a 3-D mask. -/
def dropout3 (training : Bool) (mask : List (List (List Bool))) (p : ℚ)
    (t : Mat3) : Mat3 :=
  List.zipWith
    (fun mm tm =>
      List.zipWith (fun mr tr => List.zipWith (fun m q => dropout_scalar training m p q) mr tr)
        mm tm)
    mask t

/-- The external decoder stack as a function: embedded input, optional cache,
optional max cache length ↦ hidden states and new cache. -/
abbrev Decoder := Mat3 → Option Hidden → Option Nat → Mat3 × Hidden

/-- The tuple `((output, prob, pred), cached_key_value)` returned by
`forward`. -/
structure ForwardOut where
  output : Mat3
  prob : Mat3
  pred : List (List Nat)
  cache : Hidden

/-- The call `self.transformer_decoder(self.word_embedding(x), cached_key_value,
max_cache_length)` on line 100/102. -/
def decoder_out (dec : Decoder) (W : Mat) (x : List (List Nat))
    (cached_key_value : Option Hidden) (max_cache_length : Option Nat) :
    Mat3 × Hidden :=
  dec (embed W x) cached_key_value max_cache_length

/-- The flattened un-clamped projection scores of a forward call: the decoder
output viewed as `(batch*seq, dim)` rows, each sent through
`self.word_decoding` (lines 107-108, before the clamp on line 109). -/
def raw_score_rows (dec : Decoder) (W : Mat) (x : List (List Nat))
    (cached_key_value : Option Hidden) (max_cache_length : Option Nat) : Mat :=
  ((decoder_out dec W x cached_key_value max_cache_length).1).flatten.map
    (word_decoding W)

/-- The flattened clamped scores (line 109). -/
def clamped_score_rows (dec : Decoder) (W : Mat) (x : List (List Nat))
    (cached_key_value : Option Hidden) (max_cache_length : Option Nat) : Mat :=
  (raw_score_rows dec W x cached_key_value max_cache_length).map clamp_row

/-- `TransformerXL.forward` (lines 82-115).  `training`, `drop_mask` and `p`
model the module's training flag and the `self.dropout_embedding` module
constructed on line 55 with probability `p`; the body never consults them
because the source never applies `self.dropout_embedding`.  `ef` is the
exponential map used by softmax. -/
def forward (training : Bool) (drop_mask : List (List (List Bool))) (p : ℚ)
    (ef : ℚ → ℚ) (dec : Decoder) (W : Mat) (x : List (List Nat))
    (cached_key_value : Option Hidden)
    (max_cache_length : Option Nat) : ForwardOut :=
  let r := decoder_out dec W x cached_key_value max_cache_length
  let logit := r.1
  let cached2 := repackage_hidden r.2
  let batch := logit.length
  let seq := (logit.headD []).length
  let output := clamped_score_rows dec W x cached_key_value max_cache_length
  let pred := view2 batch seq (output.map argmaxIdx)
  let prob := view2 batch seq (output.map (softmax ef))
  { output := view2 batch seq output
    prob := prob
    pred := pred
    cache := cached2 }

/-- Modelled from the spec: the forward pass as the specification describes it
for claim C2 — embedding dropout applied by the embedder to the embedded
token vectors *before* they are passed to the decoder stack ("dropout
probabilities ... applied by the decoder stack and embedder during
training-mode calls only").  This definition exists only to be compared with
`forward`, which translates the source. -/
def forward_spec_dropout (training : Bool) (drop_mask : List (List (List Bool)))
    (p : ℚ) (ef : ℚ → ℚ) (dec : Decoder) (W : Mat) (x : List (List Nat))
    (cached_key_value : Option Hidden)
    (max_cache_length : Option Nat) : ForwardOut :=
  let w_embedding := dropout3 training drop_mask p (embed W x)
  let r := dec w_embedding cached_key_value max_cache_length
  let logit := r.1
  let cached2 := repackage_hidden r.2
  let batch := logit.length
  let seq := (logit.headD []).length
  let output := (logit.flatten.map (word_decoding W)).map clamp_row
  let pred := view2 batch seq (output.map argmaxIdx)
  let prob := view2 batch seq (output.map (softmax ef))
  { output := view2 batch seq output
    prob := prob
    pred := pred
    cache := cached2 }

/-! ## Spec-modelled cache lifecycle of the external decoder stack -/

/-- Modelled from the spec: the per-layer cache update of the external
`TransformerDecoder` (in `util_transformer`, not among the sources): the
outgoing entry is "the concatenation of the incoming cache (if any) with the
current segment's keys/values, truncated from the front to the configured
maximum length" `M`. -/
def cache_update {α : Type} (M : Nat) (old seg : List α) : List α :=
  let c := old ++ seg
  c.drop (c.length - M)

/-- Modelled from the spec: one decoder-stack call updates every layer's cache
entry uniformly with that layer's new segment entries. -/
def decoder_cache_step {α : Type} (M : Nat) (segs cache : List (List α)) :
    List (List α) :=
  (cache.zip segs).map fun kv => cache_update M kv.1 kv.2

/-- Modelled from the spec: the per-layer cache along a chain of forward
calls; before the first call the cache is absent (every layer empty), and
call `k` appends segment `segs k` per layer, truncated to `M`. -/
def cache_chain {α : Type} (M n_layer : Nat) (segs : Nat → List (List α)) :
    Nat → List (List α)
  | 0 => List.replicate n_layer []
  | k + 1 => decoder_cache_step M (segs k) (cache_chain M n_layer segs k)

/-- The decoder-stack hidden states of a forward call (`logit` on line 102). -/
def logit_of (dec : Decoder) (W : Mat) (x : List (List Nat))
    (cached_key_value : Option Hidden) (max_cache_length : Option Nat) : Mat3 :=
  (decoder_out dec W x cached_key_value max_cache_length).1

/-- `q` is the position of the first occurrence of the maximal value of `l`:
it is in range, no entry exceeds `l[q]`, and every earlier entry is strictly
below `l[q]`. -/
def first_max_at (l : List ℚ) (q : Nat) : Prop :=
  q < l.length
  ∧ (∀ j, j < l.length → l.getD j 0 ≤ l.getD q 0)
  ∧ (∀ j, j < q → l.getD j 0 < l.getD q 0)

/-- A concrete strictly monotone, everywhere-positive rational stand-in for
the exponential map, used in witnesses. -/
def expQ (q : ℚ) : ℚ := if 0 ≤ q then q + 1 else 1 / (1 - q)

/-! ### Concrete fixtures used by witnesses -/

/-- A decoder stack that returns its input unchanged with an empty cache. -/
def dec_id : Decoder := fun e _ _ => (e, Hidden.group [])

/-- A tiny shared weight matrix: vocabulary 2, embedding dimension 1. -/
def W0 : Mat := [[1], [2]]

/-- A single-token input batch. -/
def x0 : List (List Nat) := [[1]]

/-- A constant stand-in for the exponential map (enough for witnesses that do
not rely on monotonicity). -/
def ef1 : ℚ → ℚ := fun _ => 1

/-! ## Helper lemmas -/

mutual

theorem repackage_hidden_preserves :
    ∀ h : Hidden,
      hiddenData (repackage_hidden h) = hiddenData h
      ∧ allDetached (repackage_hidden h) = true
  | .tensor g d => by
      simp [repackage_hidden, hiddenData, allDetached]
  | .group items => by
      have ih := repackage_hidden_list_preserves items
      simp [repackage_hidden, hiddenData, allDetached, ih.1, ih.2]

theorem repackage_hidden_list_preserves :
    ∀ l : List Hidden,
      hiddenDataList (repackage_hidden_list l) = hiddenDataList l
      ∧ allDetachedList (repackage_hidden_list l) = true
  | [] => by
      simp [repackage_hidden_list, hiddenDataList, allDetachedList]
  | h :: t => by
      have ih1 := repackage_hidden_preserves h
      have ih2 := repackage_hidden_list_preserves t
      simp [repackage_hidden_list, hiddenDataList, allDetachedList,
        ih1.1, ih1.2, ih2.1, ih2.2]

end

theorem view2_length {α : Type} (b s : Nat) (l : List α) :
    (view2 b s l).length = b := by
  simp [view2]

theorem view2_row_mem {α : Type} {b s : Nat} {l : List α} {r : List α}
    (hr : r ∈ view2 b s l) : ∃ i, i < b ∧ r = (l.drop (i * s)).take s := by
  simp only [view2, List.mem_map, List.mem_range] at hr
  obtain ⟨i, hi, rfl⟩ := hr
  exact ⟨i, hi, rfl⟩

theorem view2_row_length {α : Type} {b s : Nat} {l : List α}
    (hl : l.length = b * s) {r : List α} (hr : r ∈ view2 b s l) :
    r.length = s := by
  obtain ⟨i, hi, rfl⟩ := view2_row_mem hr
  have hle : i * s + s ≤ b * s := by
    calc i * s + s = (i + 1) * s := by ring
    _ ≤ b * s := Nat.mul_le_mul_right s (Nat.succ_le_of_lt hi)
  simp [List.length_take, List.length_drop, hl]
  omega

theorem view2_elem_mem {α : Type} {b s : Nat} {l : List α} {r : List α}
    {e : α} (hr : r ∈ view2 b s l) (he : e ∈ r) : e ∈ l := by
  obtain ⟨i, hi, rfl⟩ := view2_row_mem hr
  exact List.mem_of_mem_drop (List.mem_of_mem_take he)

theorem shape2_view2 {α : Type} {l : List α} {b s : Nat}
    (hl : l.length = b * s) : shape2 (view2 b s l) b s = true := by
  simp only [shape2, List.all_eq_true, Bool.and_eq_true, beq_iff_eq]
  exact ⟨view2_length b s l, fun r hr => view2_row_length hl hr⟩

theorem shape3_view2 {α : Type} {l : List (List α)} {b s c : Nat}
    (hl : l.length = b * s) (hc : ∀ r ∈ l, r.length = c) :
    shape3 (view2 b s l) b s c = true := by
  simp only [shape3, List.all_eq_true, Bool.and_eq_true, beq_iff_eq]
  refine ⟨view2_length b s l, fun m hm => ⟨view2_row_length hl hm, ?_⟩⟩
  exact fun r hr => hc r (view2_elem_mem hm hr)

theorem length_flatten_of_uniform {α : Type} :
    ∀ (t : List (List α)) (b : Nat),
      (∀ r ∈ t, r.length = b) → t.flatten.length = t.length * b := by
  intro t b h
  induction t with
  | nil => simp
  | cons r t ih =>
      have hr : r.length = b := h r (by simp)
      have ht := ih (fun r hr => h r (by simp [hr]))
      simp [List.flatten_cons, hr, ht]
      ring

theorem getD_map_of_lt {α β : Type} (f : α → β) (da : α) (db : β) :
    ∀ (l : List α) (n : Nat), n < l.length →
      (l.map f).getD n db = f (l.getD n da)
  | a :: t, 0, _ => rfl
  | a :: t, n + 1, h => by
      simp only [List.map_cons, List.getD_cons_succ]
      exact getD_map_of_lt f da db t n (by simpa using h)

theorem clamp_exp_bounds (q : ℚ) : -15 ≤ clamp_exp q ∧ clamp_exp q ≤ 15 := by
  unfold clamp_exp CLAMP_EXP
  split_ifs with h1 h2 <;> constructor <;> linarith

theorem argmaxIdx_first_max : ∀ l : List ℚ, l ≠ [] → first_max_at l (argmaxIdx l)
  | [], h => absurd rfl h
  | [a], _ => by
      refine ⟨by simp [argmaxIdx], ?_, ?_⟩
      · intro j hj
        have hj0 : j = 0 := by simpa [argmaxIdx] using Nat.lt_one_iff.mp (by simpa using hj)
        simp [hj0, argmaxIdx]
      · intro j hj
        simp [argmaxIdx] at hj
  | a :: b :: rest, _ => by
      have ih := argmaxIdx_first_max (b :: rest) (by simp)
      obtain ⟨ih1, ih2, ih3⟩ := ih
      simp only [argmaxIdx]
      by_cases hcond : a < (b :: rest).getD (argmaxIdx (b :: rest)) 0
      · rw [if_pos hcond]
        refine ⟨by simpa using Nat.succ_lt_succ ih1, ?_, ?_⟩
        · intro j hj
          cases j with
          | zero => simpa [List.getD_cons_succ] using le_of_lt hcond
          | succ j' =>
              simp only [List.getD_cons_succ]
              exact ih2 j' (by simpa using Nat.lt_of_succ_lt_succ hj)
        · intro j hj
          cases j with
          | zero => simpa [List.getD_cons_succ] using hcond
          | succ j' =>
              simp only [List.getD_cons_succ]
              exact ih3 j' (Nat.lt_of_succ_lt_succ hj)
      · rw [if_neg hcond]
        push_neg at hcond
        refine ⟨by simp, ?_, ?_⟩
        · intro j hj
          cases j with
          | zero => simp
          | succ j' =>
              simp only [List.getD_cons_succ, List.getD_cons_zero]
              exact le_trans (ih2 j' (by simpa using Nat.lt_of_succ_lt_succ hj)) hcond
        · intro j hj
          exact absurd hj (Nat.not_lt_zero j)

theorem argmaxIdx_map (f : ℚ → ℚ) (hf : ∀ p q : ℚ, p < q ↔ f p < f q) :
    ∀ l : List ℚ, argmaxIdx (l.map f) = argmaxIdx l
  | [] => rfl
  | [a] => rfl
  | a :: b :: rest => by
      have ih := argmaxIdx_map f hf (b :: rest)
      have hr := (argmaxIdx_first_max (b :: rest) (by simp)).1
      have hget : ((b :: rest).map f).getD (argmaxIdx (b :: rest)) 0
          = f ((b :: rest).getD (argmaxIdx (b :: rest)) 0) :=
        getD_map_of_lt f 0 0 (b :: rest) (argmaxIdx (b :: rest)) hr
      simp only [List.map_cons] at ih hget ⊢
      simp only [argmaxIdx, ih, hget]
      by_cases hc : a < (b :: rest).getD (argmaxIdx (b :: rest)) 0
      · rw [if_pos hc, if_pos ((hf _ _).mp hc)]
      · rw [if_neg hc, if_neg (fun hlt => hc ((hf _ _).mpr hlt))]

theorem argmaxIdx_softmax (ef : ℚ → ℚ) (hmono : StrictMono ef)
    (hpos : ∀ q : ℚ, 0 < ef q) (r : Vec) :
    argmaxIdx (softmax ef r) = argmaxIdx r := by
  cases r with
  | nil => rfl
  | cons a t =>
      have hS : 0 < ((a :: t).map ef).sum := by
        refine List.sum_pos _ ?_ (by simp)
        intro q hq
        obtain ⟨q0, _, rfl⟩ := List.mem_map.mp hq
        exact hpos q0
      unfold softmax
      rw [List.map_map]
      refine argmaxIdx_map _ ?_ (a :: t)
      intro p q
      constructor
      · intro h
        exact (div_lt_div_iff_of_pos_right hS).mpr (hmono h)
      · intro h
        exact hmono.lt_iff_lt.mp ((div_lt_div_iff_of_pos_right hS).mp h)

theorem expQ_pos (q : ℚ) : 0 < expQ q := by
  unfold expQ
  by_cases h : 0 ≤ q
  · rw [if_pos h]; linarith
  · rw [if_neg h]
    have hq : q < 0 := lt_of_not_le h
    exact one_div_pos.mpr (by linarith)

theorem expQ_strictMono : StrictMono expQ := by
  intro a b hab
  unfold expQ
  by_cases ha : 0 ≤ a
  · rw [if_pos ha, if_pos (le_trans ha (le_of_lt hab))]
    linarith
  · have ha2 : a < 0 := lt_of_not_le ha
    rw [if_neg ha]
    by_cases hb : 0 ≤ b
    · rw [if_pos hb]
      have h1 : 1 / (1 - a) < 1 := by
        rw [div_lt_one (by linarith)]
        linarith
      linarith
    · have hb2 : b < 0 := lt_of_not_le hb
      rw [if_neg hb]
      rw [one_div_lt_one_div (by linarith) (by linarith)]
      linarith

theorem forward_output_eq (training : Bool) (drop_mask : List (List (List Bool)))
    (p : ℚ) (ef : ℚ → ℚ) (dec : Decoder) (W : Mat) (x : List (List Nat))
    (c : Option Hidden) (m : Option Nat) :
    (forward training drop_mask p ef dec W x c m).output
      = view2 (logit_of dec W x c m).length ((logit_of dec W x c m).headD []).length
          (clamped_score_rows dec W x c m) := rfl

theorem forward_prob_eq (training : Bool) (drop_mask : List (List (List Bool)))
    (p : ℚ) (ef : ℚ → ℚ) (dec : Decoder) (W : Mat) (x : List (List Nat))
    (c : Option Hidden) (m : Option Nat) :
    (forward training drop_mask p ef dec W x c m).prob
      = view2 (logit_of dec W x c m).length ((logit_of dec W x c m).headD []).length
          ((clamped_score_rows dec W x c m).map (softmax ef)) := rfl

theorem forward_pred_eq (training : Bool) (drop_mask : List (List (List Bool)))
    (p : ℚ) (ef : ℚ → ℚ) (dec : Decoder) (W : Mat) (x : List (List Nat))
    (c : Option Hidden) (m : Option Nat) :
    (forward training drop_mask p ef dec W x c m).pred
      = view2 (logit_of dec W x c m).length ((logit_of dec W x c m).headD []).length
          ((clamped_score_rows dec W x c m).map argmaxIdx) := rfl

theorem dot_zipWith_add : ∀ w u v : Vec, u.length = v.length →
    dot w (List.zipWith (fun a b => a + b) u v) = dot w u + dot w v
  | [], _, _, _ => by simp [dot]
  | w0 :: w, [], v, h => by
      have hv : v = [] := List.length_eq_zero.mp h.symm
      subst hv; simp [dot]
  | w0 :: w, u0 :: u, [], h => by simp at h
  | w0 :: w, u0 :: u, v0 :: v, h => by
      have ih := dot_zipWith_add w u v (by simpa using h)
      simp only [List.zipWith_cons_cons, dot, List.sum_cons] at ih ⊢
      rw [ih]; ring

theorem dot_map_smul : ∀ (w u : Vec) (a : ℚ),
    dot w (u.map (fun q => a * q)) = a * dot w u
  | [], u, a => by simp [dot]
  | w0 :: w, [], a => by simp [dot]
  | w0 :: w, u0 :: u, a => by
      have ih := dot_map_smul w u a
      simp only [List.map_cons, List.zipWith_cons_cons, dot, List.sum_cons] at ih ⊢
      rw [ih]; ring

theorem dot_replicate_zero : ∀ (w : Vec) (n : Nat),
    dot w (List.replicate n 0) = 0
  | [], n => by simp [dot]
  | w0 :: w, 0 => by simp [dot]
  | w0 :: w, n + 1 => by
      have ih := dot_replicate_zero w n
      simp only [List.replicate_succ, List.zipWith_cons_cons, dot,
        List.sum_cons] at ih ⊢
      rw [ih]; ring

/-! ## Claims -/

/-- C1: Weight tying — after construction (lines 51-54), the matrix used by
the embedding lookup and the matrix used by the output projection are the
same storage, not a copy: the two weight references coincide, reads agree on
every store, and mutating the storage through either reference is observed
identically through the other. -/
theorem C1_weight_tying (embedding_ref linear_ref : Nat) (σ : Store) (W : Mat) :
    (txl_init_refs embedding_ref linear_ref).word_decoding_weight
      = (txl_init_refs embedding_ref linear_ref).word_embedding_weight
    ∧ read_embedding_weight σ (txl_init_refs embedding_ref linear_ref)
      = read_decoding_weight σ (txl_init_refs embedding_ref linear_ref)
    ∧ read_decoding_weight
        (store_write σ (txl_init_refs embedding_ref linear_ref).word_embedding_weight W)
        (txl_init_refs embedding_ref linear_ref) = W
    ∧ read_embedding_weight
        (store_write σ (txl_init_refs embedding_ref linear_ref).word_decoding_weight W)
        (txl_init_refs embedding_ref linear_ref) = W := by
  refine ⟨rfl, rfl, ?_, ?_⟩ <;>
    simp [read_decoding_weight, read_embedding_weight, store_write, txl_init_refs]

/-- C5: `repackage_hidden` is applied recursively to every tensor in the
cache at every nesting depth: the result has the same nesting structure,
entry counts and numeric contents as its input (`hiddenData` is unchanged),
and every tensor in the result has been detached. -/
theorem C5_repackage_hidden_preserves (h : Hidden) :
    hiddenData (repackage_hidden h) = hiddenData h
    ∧ allDetached (repackage_hidden h) = true :=
  repackage_hidden_preserves h

/-- C8: cache growth and truncation (spec-modelled decoder-stack cache):
with maximum cache length `M` and every call appending a segment of length
`s` per layer, after call `k` the cache still has one entry per layer and
every layer's cached length equals `min (k*s) M`. -/
theorem C8_cache_growth {α : Type} (M n_layer s : Nat)
    (segs : Nat → List (List α))
    (hlen : ∀ k, (segs k).length = n_layer)
    (hseg : ∀ k, ∀ l ∈ segs k, l.length = s) :
    ∀ k, (cache_chain M n_layer segs k).length = n_layer
      ∧ ∀ c ∈ cache_chain M n_layer segs k, c.length = min (k * s) M := by
  intro k
  induction k with
  | zero => simp [cache_chain]
  | succ k ih =>
      constructor
      · simp [cache_chain, decoder_cache_step, List.length_map,
          List.length_zip, ih.1, hlen k]
      · intro c hc
        simp only [cache_chain, decoder_cache_step, List.mem_map] at hc
        obtain ⟨⟨old, seg⟩, hmem, rfl⟩ := hc
        have hzip := List.of_mem_zip hmem
        have hold := ih.2 old hzip.1
        have hsg := hseg k seg hzip.2
        simp only [cache_update, List.length_drop, List.length_append,
          hold, hsg, Nat.succ_mul]
        omega

/-- C2 (code bug): the source constructs `self.dropout_embedding` (line 55)
but `forward` never applies it — the comment on line 100 announces "dropout
embeddings", yet the embedded vectors reach the decoder stack un-dropped.
First conjunct: the result of `forward` is completely independent of the
training flag, the dropout mask and the dropout probability.  Second
conjunct: at a concrete training-mode input the code's output differs from
the spec-mandated behaviour `forward_spec_dropout` in which the embedder
applies dropout before the decoder stack. -/
theorem C2_dropout_embedding_never_applied :
    (∀ (training : Bool) (drop_mask : List (List (List Bool))) (p : ℚ)
        (training2 : Bool) (drop_mask2 : List (List (List Bool))) (p2 : ℚ)
        (ef : ℚ → ℚ) (dec : Decoder) (W : Mat) (x : List (List Nat))
        (c : Option Hidden) (m : Option Nat),
      forward training drop_mask p ef dec W x c m
        = forward training2 drop_mask2 p2 ef dec W x c m)
    ∧ (forward true [[[true]]] (1 / 2) ef1 dec_id W0 x0 none none).output
        ≠ (forward_spec_dropout true [[[true]]] (1 / 2) ef1 dec_id W0 x0
            none none).output := by
  constructor
  · intro training drop_mask p training2 drop_mask2 p2 ef dec W x c m
    rfl
  · have h1 : (forward true [[[true]]] (1 / 2) ef1 dec_id W0 x0 none
        none).output = [[[2, 4]]] := by
      norm_num [forward, decoder_out, dec_id, embed, W0, x0,
        clamped_score_rows, raw_score_rows, word_decoding, dot, clamp_row,
        clamp_exp, CLAMP_EXP, view2, List.range_succ]
    have h2 : (forward_spec_dropout true [[[true]]] (1 / 2) ef1 dec_id W0 x0
        none none).output = [[[0, 0]]] := by
      norm_num [forward_spec_dropout, dec_id, embed, W0, x0, word_decoding,
        dot, clamp_row, clamp_exp, CLAMP_EXP, view2, dropout3,
        dropout_scalar, List.range_succ]
    rw [h1, h2]
    norm_num

/-- C3: the raw projection scores are clamped elementwise to `[-15, 15]`
before softmax: the returned scores are the clamp of the raw scores, the
probabilities are softmax of those same clamped scores, and the clamp
saturates — scores `≥ 15` become exactly `15`, scores `≤ -15` become exactly
`-15`, and scores strictly inside the range pass through unchanged. -/
theorem C3_clamp_before_softmax (training : Bool)
    (drop_mask : List (List (List Bool))) (p : ℚ) (ef : ℚ → ℚ)
    (dec : Decoder) (W : Mat) (x : List (List Nat)) (c : Option Hidden)
    (m : Option Nat) :
    (forward training drop_mask p ef dec W x c m).output
      = view2 (logit_of dec W x c m).length
          ((logit_of dec W x c m).headD []).length
          ((raw_score_rows dec W x c m).map clamp_row)
    ∧ (forward training drop_mask p ef dec W x c m).prob
      = view2 (logit_of dec W x c m).length
          ((logit_of dec W x c m).headD []).length
          (((raw_score_rows dec W x c m).map clamp_row).map (softmax ef))
    ∧ (∀ q : ℚ, 15 ≤ q → clamp_exp q = 15)
    ∧ (∀ q : ℚ, q ≤ -15 → clamp_exp q = -15)
    ∧ (∀ q : ℚ, -15 < q → q < 15 → clamp_exp q = q) := by
  refine ⟨rfl, rfl, ?_, ?_, ?_⟩
  · intro q h
    unfold clamp_exp CLAMP_EXP
    split_ifs with h1 h2 <;> linarith
  · intro q h
    unfold clamp_exp CLAMP_EXP
    split_ifs with h1 h2 <;> linarith
  · intro q h1 h2
    unfold clamp_exp CLAMP_EXP
    split_ifs with g1 g2 <;> linarith

/-- Witness for C3 at a concrete forward call and concrete scores. -/
theorem C3_clamp_before_softmax_witness :
    (forward false [] 0 ef1 dec_id W0 x0 none none).output
      = view2 (logit_of dec_id W0 x0 none none).length
          ((logit_of dec_id W0 x0 none none).headD []).length
          ((raw_score_rows dec_id W0 x0 none none).map clamp_row)
    ∧ clamp_exp 20 = 15 ∧ clamp_exp (-20) = -15 ∧ clamp_exp 3 = 3 := by
  have h := C3_clamp_before_softmax false [] 0 ef1 dec_id W0 x0 none none
  exact ⟨h.1, h.2.2.1 20 (by norm_num), h.2.2.2.1 (-20) (by norm_num),
    h.2.2.2.2 3 (by norm_num) (by norm_num)⟩

/-- C4: predictions are the argmax of the clamped scores along the
vocabulary axis (first-occurrence tie-breaking), the probabilities are the
softmax of the very same clamped rows (no separate unclamped path), and for
a strictly monotone positive exponential map the argmax of each softmax row
coincides with the argmax of the underlying clamped row, so predictions
always agree with the argmax of probabilities. -/
theorem C4_predictions_argmax (training : Bool)
    (drop_mask : List (List (List Bool))) (p : ℚ) (ef : ℚ → ℚ)
    (dec : Decoder) (W : Mat) (x : List (List Nat)) (c : Option Hidden)
    (m : Option Nat) (hmono : StrictMono ef) (hpos : ∀ q : ℚ, 0 < ef q) :
    (forward training drop_mask p ef dec W x c m).pred
      = view2 (logit_of dec W x c m).length
          ((logit_of dec W x c m).headD []).length
          ((clamped_score_rows dec W x c m).map argmaxIdx)
    ∧ (forward training drop_mask p ef dec W x c m).prob
      = view2 (logit_of dec W x c m).length
          ((logit_of dec W x c m).headD []).length
          ((clamped_score_rows dec W x c m).map (softmax ef))
    ∧ (∀ r ∈ clamped_score_rows dec W x c m, r ≠ [] →
        first_max_at r (argmaxIdx r))
    ∧ (∀ r ∈ clamped_score_rows dec W x c m,
        argmaxIdx (softmax ef r) = argmaxIdx r) := by
  refine ⟨rfl, rfl, ?_, ?_⟩
  · exact fun r _ hne => argmaxIdx_first_max r hne
  · exact fun r _ => argmaxIdx_softmax ef hmono hpos r

/-- Witness for C4 with the concrete strictly monotone positive map
`expQ`. -/
theorem C4_predictions_argmax_witness :
    (forward false [] 0 expQ dec_id W0 x0 none none).pred
      = view2 (logit_of dec_id W0 x0 none none).length
          ((logit_of dec_id W0 x0 none none).headD []).length
          ((clamped_score_rows dec_id W0 x0 none none).map argmaxIdx)
    ∧ argmaxIdx (softmax expQ [(2 : ℚ), 4]) = argmaxIdx [(2 : ℚ), 4] := by
  have hc : clamped_score_rows dec_id W0 x0 none none = [[(2 : ℚ), 4]] := by
    norm_num [clamped_score_rows, raw_score_rows, decoder_out, dec_id, embed,
      W0, x0, word_decoding, dot, clamp_row, clamp_exp, CLAMP_EXP]
  have h := C4_predictions_argmax false [] 0 expQ dec_id W0 x0 none none
    expQ_strictMono expQ_pos
  refine ⟨h.1, h.2.2.2 [(2 : ℚ), 4] ?_⟩
  rw [hc]
  simp

/-- C6: under the decoder-stack shape contract (hidden states keep the
input's leading `(batch, s)` shape), `forward` returns scores and
probabilities of shape `(batch, s, vocab)` and predictions of shape
`(batch, s)`, where `vocab` is the row count of the shared matrix. -/
theorem C6_output_shapes (training : Bool)
    (drop_mask : List (List (List Bool))) (p : ℚ) (ef : ℚ → ℚ)
    (dec : Decoder) (W : Mat) (x : List (List Nat)) (c : Option Hidden)
    (m : Option Nat) (batch s d : Nat)
    (hx : shape2 x batch s = true)
    (hdec : shape3 (logit_of dec W x c m) batch s d = true) :
    shape3 (forward training drop_mask p ef dec W x c m).output batch s
        W.length = true
    ∧ shape3 (forward training drop_mask p ef dec W x c m).prob batch s
        W.length = true
    ∧ shape2 (forward training drop_mask p ef dec W x c m).pred batch s
        = true := by
  simp only [shape3, List.all_eq_true, Bool.and_eq_true, beq_iff_eq] at hdec
  obtain ⟨hlen, hrows⟩ := hdec
  have hrowlen : ∀ r ∈ logit_of dec W x c m, r.length = s :=
    fun r hr => (hrows r hr).1
  have hflat : (logit_of dec W x c m).flatten.length = batch * s := by
    rw [length_flatten_of_uniform _ s hrowlen, hlen]
  have hcrows : clamped_score_rows dec W x c m
      = ((logit_of dec W x c m).flatten.map (word_decoding W)).map clamp_row :=
    rfl
  have hclen : (clamped_score_rows dec W x c m).length = batch * s := by
    rw [hcrows, List.length_map, List.length_map, hflat]
  have hcw : ∀ r ∈ clamped_score_rows dec W x c m, r.length = W.length := by
    rw [hcrows]
    intro r hr
    simp only [List.mem_map] at hr
    obtain ⟨r1, hr1, rfl⟩ := hr
    obtain ⟨h0, _, rfl⟩ := hr1
    simp [clamp_row, word_decoding]
  rw [forward_output_eq, forward_prob_eq, forward_pred_eq]
  rcases hcase : logit_of dec W x c m with _ | ⟨m0, rest⟩
  · have hb : batch = 0 := by
      rw [hcase] at hlen
      simpa using hlen.symm
    subst hb
    refine ⟨?_, ?_, ?_⟩ <;> simp [view2, shape3, shape2]
  · have hseq : m0.length = s := by
      refine hrowlen m0 ?_
      rw [hcase]
      exact List.mem_cons_self m0 rest
    have hblen : (m0 :: rest).length = batch := by
      rw [← hcase]
      exact hlen
    have hhead : ((m0 :: rest).headD []).length = s := hseq
    rw [hblen, hhead]
    refine ⟨shape3_view2 hclen hcw, shape3_view2 ?_ ?_, shape2_view2 ?_⟩
    · simp [hclen]
    · intro r hr
      obtain ⟨r0, hr0, rfl⟩ := List.mem_map.mp hr
      simp [softmax, hcw r0 hr0]
    · simp [hclen]

/-- Witness for C6: batch 1, sequence length 1, vocabulary 2. -/
theorem C6_output_shapes_witness :
    shape3 (forward false [] 0 ef1 dec_id W0 x0 none none).output 1 1
        W0.length = true
    ∧ shape3 (forward false [] 0 ef1 dec_id W0 x0 none none).prob 1 1
        W0.length = true
    ∧ shape2 (forward false [] 0 ef1 dec_id W0 x0 none none).pred 1 1
        = true :=
  C6_output_shapes false [] 0 ef1 dec_id W0 x0 none none 1 1 1
    (by decide) (by decide)

/-- C7: the output projection is exactly multiplication by the transpose of
the shared matrix with no additive bias: the raw scores of every forward
call come from `word_decoding` applied to the decoder output, coordinate `v`
of `word_decoding W h` is the dot product of row `v` of `W` with `h`, and
the map is additive, homogeneous and sends the zero vector to the zero
vector (a bias term would break each of these). -/
theorem C7_projection_linear_no_bias (dec : Decoder) (W : Mat)
    (x : List (List Nat)) (c : Option Hidden) (m : Option Nat)
    (h1 h2 : Vec) (a : ℚ) (hlen : h1.length = h2.length) :
    raw_score_rows dec W x c m
      = (logit_of dec W x c m).flatten.map (word_decoding W)
    ∧ word_decoding W (List.zipWith (fun u v => u + v) h1 h2)
      = List.zipWith (fun u v => u + v) (word_decoding W h1)
          (word_decoding W h2)
    ∧ word_decoding W (h1.map (fun q => a * q))
      = (word_decoding W h1).map (fun q => a * q)
    ∧ word_decoding W (List.replicate h1.length 0)
      = List.replicate W.length 0
    ∧ ∀ v, v < W.length →
        (word_decoding W h1).getD v 0 = dot (W.getD v []) h1 := by
  refine ⟨rfl, ?_, ?_, ?_, ?_⟩
  · induction W with
    | nil => rfl
    | cons w0 Wt ih =>
        simp only [word_decoding, List.map_cons, List.zipWith_cons_cons] at ih ⊢
        rw [dot_zipWith_add w0 h1 h2 hlen]
        exact congrArg _ ih
  · induction W with
    | nil => rfl
    | cons w0 Wt ih =>
        simp only [word_decoding, List.map_cons] at ih ⊢
        rw [dot_map_smul w0 h1 a]
        exact congrArg _ ih
  · induction W with
    | nil => rfl
    | cons w0 Wt ih =>
        simp only [word_decoding, List.map_cons, List.length_cons,
          List.replicate_succ] at ih ⊢
        rw [dot_replicate_zero w0 h1.length]
        exact congrArg _ ih
  · intro v hv
    exact getD_map_of_lt (fun wrow => dot wrow h1) [] 0 W v hv

/-- Witness for C7 on the concrete matrix `W0`. -/
theorem C7_projection_linear_no_bias_witness :
    word_decoding W0 (List.zipWith (fun u v => u + v) [(3 : ℚ)] [(4 : ℚ)])
      = List.zipWith (fun u v => u + v) (word_decoding W0 [(3 : ℚ)])
          (word_decoding W0 [(4 : ℚ)])
    ∧ word_decoding W0 (List.replicate (List.length [(3 : ℚ)]) 0)
      = List.replicate W0.length 0
    ∧ (word_decoding W0 [(3 : ℚ)]).getD 1 0 = dot (W0.getD 1 []) [(3 : ℚ)] := by
  have h := C7_projection_linear_no_bias dec_id W0 x0 none none
    [(3 : ℚ)] [(4 : ℚ)] 2 rfl
  exact ⟨h.2.1, h.2.2.2.1, h.2.2.2.2 1 (by decide)⟩

/-- C9: determinism in evaluation mode — with the training flag off, two
forward calls with equal ids and equal (or both absent) caches return equal
scores, probabilities, predictions and cache, whatever dropout masks or
probabilities are around. -/
theorem C9_eval_determinism (drop_mask1 drop_mask2 : List (List (List Bool)))
    (p1 p2 : ℚ) (ef : ℚ → ℚ) (dec : Decoder) (W : Mat)
    (x1 x2 : List (List Nat)) (c1 c2 : Option Hidden) (m : Option Nat)
    (hx : x1 = x2) (hc : c1 = c2) :
    forward false drop_mask1 p1 ef dec W x1 c1 m
      = forward false drop_mask2 p2 ef dec W x2 c2 m := by
  subst hx
  subst hc
  rfl

/-- Witness for C9 at a concrete call (with two different dropout masks). -/
theorem C9_eval_determinism_witness :
    forward false [] 0 ef1 dec_id W0 x0 none none
      = forward false [[[true]]] (1 / 2) ef1 dec_id W0 x0 none none :=
  C9_eval_determinism [] [[[true]]] 0 (1 / 2) ef1 dec_id W0 x0 x0 none none
    none rfl rfl

/-- C10: the first tensor returned by `forward` is itself the clamped
tensor: every element of it lies in `[-15, 15]`. -/
theorem C10_output_within_clamp (training : Bool)
    (drop_mask : List (List (List Bool))) (p : ℚ) (ef : ℚ → ℚ)
    (dec : Decoder) (W : Mat) (x : List (List Nat)) (c : Option Hidden)
    (m : Option Nat) (plane : Mat) (row : Vec) (e : ℚ)
    (hplane : plane ∈ (forward training drop_mask p ef dec W x c m).output)
    (hrow : row ∈ plane) (he : e ∈ row) :
    -15 ≤ e ∧ e ≤ 15 := by
  rw [forward_output_eq] at hplane
  have hrow2 : row ∈ clamped_score_rows dec W x c m :=
    view2_elem_mem hplane hrow
  simp only [clamped_score_rows, List.mem_map] at hrow2
  obtain ⟨r0, _, rfl⟩ := hrow2
  simp only [clamp_row, List.mem_map] at he
  obtain ⟨q, _, rfl⟩ := he
  exact clamp_exp_bounds q

/-- Witness for C10: the element `2` of a concrete forward output is within
the clamp range. -/
theorem C10_output_within_clamp_witness : -15 ≤ (2 : ℚ) ∧ (2 : ℚ) ≤ 15 := by
  have hout : (forward false [] 0 ef1 dec_id W0 x0 none none).output
      = [[[(2 : ℚ), 4]]] := by
    norm_num [forward, decoder_out, dec_id, embed, W0, x0,
      clamped_score_rows, raw_score_rows, word_decoding, dot, clamp_row,
      clamp_exp, CLAMP_EXP, view2, List.range_succ]
  refine C10_output_within_clamp false [] 0 ef1 dec_id W0 x0 none none
    [[(2 : ℚ), 4]] [(2 : ℚ), 4] 2 ?_ (by simp) (by simp)
  rw [hout]
  simp

/-- Witness for C8 at `M = 3`, `n_layer = 2`, `s = 2`, `k = 2`. -/
theorem C8_cache_growth_witness :
    (cache_chain 3 2 (fun _ => [[(0 : ℚ), 0], [0, 0]]) 2).length = 2
    ∧ ∀ c ∈ cache_chain 3 2 (fun _ => [[(0 : ℚ), 0], [0, 0]]) 2,
        c.length = min (2 * 2) 3 :=
  C8_cache_growth 3 2 2 (fun _ => [[(0 : ℚ), 0], [0, 0]])
    (fun _ => rfl)
    (fun _ l hl => by
      simp only [List.mem_cons, List.not_mem_nil, or_false] at hl
      rcases hl with rfl | rfl <;> rfl)
    2

end TXL
